import Mathlib

/-!
Shallow embedding of the byte-pair-encoding tokenizer in `src/tokenizer.py`
(functions `text_to_tokens`, `find_token_pairs`, `merge`, `perform_merges`,
`encode_text`, `decode_text`), together with proofs of the specification
claims about it.

Text is modelled as `List Char` (Lean `Char` is exactly a Unicode scalar
value, matching Python `str` content that `str.encode('utf-8')` accepts);
token sequences as `List Nat`.  Python's `text.encode('utf-8')` is modelled
by `utf8EncodeChar`/`text_to_tokens`, and `bytes(...).decode('utf-8')` by
`decodeUtf8` (a strict RFC 3629 decoder, as CPython's strict codec is).
File I/O, progress printing and JSON persistence are outside the embedding.
-/

namespace Tokenizer

/-- UTF-8 encoding of a single Unicode scalar value, each byte as a `Nat`.
Models the per-character behaviour of Python's `str.encode('utf-8')`. -/
def utf8EncodeChar (c : Char) : List Nat :=
  if c.toNat < 128 then [c.toNat]
  else if c.toNat < 2048 then [192 + c.toNat / 64, 128 + c.toNat % 64]
  else if c.toNat < 65536 then
    [224 + c.toNat / 4096, 128 + (c.toNat / 64) % 64, 128 + c.toNat % 64]
  else
    [240 + c.toNat / 262144, 128 + (c.toNat / 4096) % 64, 128 + (c.toNat / 64) % 64,
      128 + c.toNat % 64]

/-- Embedding of `text_to_tokens(text)`: `list(text.encode('utf-8'))`. -/
def text_to_tokens : List Char → List Nat
  | [] => []
  | c :: cs => utf8EncodeChar c ++ text_to_tokens cs

/-- Embedding of `find_token_pairs(tokens)`:
`[tuple(tokens[i:i+2]) for i in range(len(tokens) - 1)]`, the list of
adjacent pairs in order. -/
def find_token_pairs : List Nat → List (Nat × Nat)
  | a :: b :: rest => (a, b) :: find_token_pairs (b :: rest)
  | _ => []

/-- Embedding of `count_pair_frequencies(token_pairs).most_common(1)[0]`
(with the empty-input guard `if not token_pairs: break` mapped to `none`).
`Counter.most_common(1)` takes the maximum over the counter's items
(insertion order = first-occurrence order) under the count, keeping the
first maximal item on ties.  Folding over the occurrence list itself with a
strict `>` replacement computes the same value: a repeated key carries the
same count as its first occurrence, so it never replaces the running best. -/
def best_step (tps : List (Nat × Nat)) (best : (Nat × Nat) × Nat)
    (k2 : Nat × Nat) : (Nat × Nat) × Nat :=
  if tps.count k2 > best.2 then (k2, tps.count k2) else best

/-- Head of `Counter(token_pairs).most_common(1)` via `best_step`; see the
comment there.  `none` exactly when there are no pairs. -/
def most_common_1 (tps : List (Nat × Nat)) : Option ((Nat × Nat) × Nat) :=
  match tps with
  | [] => none
  | k :: ks => some (ks.foldl (best_step tps) (k, tps.count k))

/-- One learned merge rule, as stored by `perform_merges`:
`{'pair': ..., 'new_token': ..., 'count': ...}`. -/
structure MergeRule where
  pair : Nat × Nat
  new_token : Nat
  count : Nat
deriving DecidableEq, Repr

/-- The scanning loop body of `merge`: walk left to right, replacing each
non-overlapping occurrence of `p` by `idx` (advance by 2 on a match,
otherwise emit the current token and advance by 1). -/
def mergeScan : List Nat → Nat × Nat → Nat → List Nat
  | a :: b :: rest, p, idx =>
    if a = p.1 ∧ b = p.2 then idx :: mergeScan rest p idx
    else a :: mergeScan (b :: rest) p idx
  | ids, _, _ => ids

/-- Embedding of `merge(ids, pair, idx)`, including the early exit
`if len(ids) < 2: return ids`. -/
def merge (ids : List Nat) (p : Nat × Nat) (idx : Nat) : List Nat :=
  if ids.length < 2 then ids else mergeScan ids p idx

/-- The training loop of `perform_merges`, with the round budget as fuel.
Faithful to the Python control flow: per round, break when no pairs exist,
break when the best count is `< 2`, otherwise record the rule, rewrite via
`merge`, bump the next token id, and break early when the sequence has
collapsed to length `≤ 1`.  The progress printing is I/O only and elided. -/
def perform_merges_loop : Nat → List Nat → Nat → List MergeRule →
    List Nat × Nat × List MergeRule
  | 0, cur, next, rules => (cur, next, rules)
  | fuel + 1, cur, next, rules =>
    match most_common_1 (find_token_pairs cur) with
    | none => (cur, next, rules)
    | some pc =>
      if pc.2 < 2 then (cur, next, rules)
      else if (merge cur pc.1 next).length ≤ 1 then
        (merge cur pc.1 next, next + 1, rules ++ [⟨pc.1, next, pc.2⟩])
      else
        perform_merges_loop fuel (merge cur pc.1 next) (next + 1)
          (rules ++ [⟨pc.1, next, pc.2⟩])

/-- Embedding of `perform_merges(tokens, num_merges, start_token_idx)`:
returns `(current_tokens, next_token_idx, merge_rules)`. -/
def perform_merges (tokens : List Nat) (num_merges : Nat) (start_token_idx : Nat) :
    List Nat × Nat × List MergeRule :=
  perform_merges_loop num_merges tokens start_token_idx []

/-- The rule-replay loop of `encode_text`:
`for rule in merge_rules: tokens = merge(tokens, rule['pair'], rule['new_token'])`. -/
def apply_rules (tokens : List Nat) (rules : List MergeRule) : List Nat :=
  rules.foldl (fun ts r => merge ts r.pair r.new_token) tokens

/-- Embedding of `encode_text(text, merge_rules, start_token_idx=256)`.
The `start_token_idx` parameter is accepted and, as in the source, unused. -/
def encode_text (text : List Char) (merge_rules : List MergeRule)
    (start_token_idx : Nat) : List Nat :=
  apply_rules (text_to_tokens text) merge_rules

/-- The inner while loop of `decode_text` for one rule: replace every
occurrence of the rule's `new_token` by the two tokens of its `pair`. -/
def expand_token : List Nat → Nat × Nat → Nat → List Nat
  | [], _, _ => []
  | t :: rest, p, c =>
    if t = c then p.1 :: p.2 :: expand_token rest p c
    else t :: expand_token rest p c

/-- The rule loop of `decode_text`: `for rule in reversed(merge_rules)`,
expanding each rule's token in reverse learned order. -/
def expand_all (tokens : List Nat) (rules : List MergeRule) : List Nat :=
  rules.reverse.foldl (fun ts r => expand_token ts r.pair r.new_token) tokens

/-- Continuation byte of a 2-byte UTF-8 sequence with head `b1`. -/
def decodeTail2 (b1 : Nat) : List Nat → Option (Char × List Nat)
  | b2 :: bs2 =>
    if 128 ≤ b2 ∧ b2 < 192 then
      some (Char.ofNat ((b1 - 192) * 64 + (b2 - 128)), bs2)
    else none
  | [] => none

/-- Continuation bytes of a 3-byte UTF-8 sequence with head `b1`
(`E0` overlong range and `ED` surrogate range rejected). -/
def decodeTail3 (b1 : Nat) : List Nat → Option (Char × List Nat)
  | b2 :: b3 :: bs3 =>
    if (128 ≤ b2 ∧ b2 < 192) ∧ (b1 = 224 → 160 ≤ b2) ∧ (b1 = 237 → b2 < 160) ∧
        (128 ≤ b3 ∧ b3 < 192) then
      some (Char.ofNat ((b1 - 224) * 4096 + (b2 - 128) * 64 + (b3 - 128)), bs3)
    else none
  | _ => none

/-- Continuation bytes of a 4-byte UTF-8 sequence with head `b1`
(`F0` overlong range and `F4` above-U+10FFFF range rejected). -/
def decodeTail4 (b1 : Nat) : List Nat → Option (Char × List Nat)
  | b2 :: b3 :: b4 :: bs4 =>
    if (128 ≤ b2 ∧ b2 < 192) ∧ (b1 = 240 → 144 ≤ b2) ∧ (b1 = 244 → b2 < 144) ∧
        (128 ≤ b3 ∧ b3 < 192) ∧ (128 ≤ b4 ∧ b4 < 192) then
      some (Char.ofNat
        ((b1 - 240) * 262144 + (b2 - 128) * 4096 + (b3 - 128) * 64 + (b4 - 128)), bs4)
    else none
  | _ => none

/-- Decode one scalar value off the front of a byte stream, strict RFC 3629
as CPython's default `utf-8` codec: `none` on a stray continuation byte,
overlong encoding, surrogate, value above U+10FFFF, or truncation. -/
def decodeOne : List Nat → Option (Char × List Nat)
  | [] => none
  | b1 :: bs =>
    if b1 < 128 then some (Char.ofNat b1, bs)
    else if b1 < 194 then none
    else if b1 < 224 then decodeTail2 b1 bs
    else if b1 < 240 then decodeTail3 b1 bs
    else if b1 < 245 then decodeTail4 b1 bs
    else none

/-- Iterate `decodeOne` to exhaustion.  The fuel only bounds the number of
steps; any `fuel ≥ length` gives the decoder's value, since every step
consumes at least one byte. -/
def decodeUtf8Fuel : Nat → List Nat → Option (List Char)
  | _, [] => some []
  | 0, _ :: _ => none
  | fuel + 1, b1 :: bs1 =>
    match decodeOne (b1 :: bs1) with
    | some cr => (decodeUtf8Fuel fuel cr.2).map (fun cs => cr.1 :: cs)
    | none => none

/-- Strict UTF-8 decoder over byte values, modelling
`bytes(...).decode('utf-8')` in strict (default) mode: rejects truncated
sequences, stray continuation bytes, overlong encodings, surrogates and
values above U+10FFFF. -/
def decodeUtf8 (bs : List Nat) : Option (List Char) :=
  decodeUtf8Fuel bs.length bs

/-- The placeholder string `decode_text` returns when UTF-8 decoding fails:
Python's `f"[Decoding failed. Tokens: {current_tokens}]"`, where the token
list is rendered as `str(list)` does (`[a, b, c]`). -/
def decodeFailedMessage (tokens : List Nat) : String :=
  "[Decoding failed. Tokens: [" ++
    String.intercalate ", " (tokens.map Nat.repr) ++ "]]"

/-- Observable outcome of the Python `decode_text` call: either a returned
`str`, or an uncaught `ValueError` raised by `bytes(current_tokens)` when a
token value above 255 remains (only `UnicodeDecodeError` is caught). -/
inductive PyStrResult where
  | ok (s : String)
  | valueError
deriving DecidableEq, Repr

/-- Embedding of `decode_text(tokens, merge_rules, start_token_idx=256)`:
expand all rules in reverse learned order, then `bytes(...)` (raising
`ValueError` on any value `> 255`) and `.decode('utf-8')`, catching only
`UnicodeDecodeError` and returning the placeholder string in that case.
The `start_token_idx` parameter is accepted and, as in the source, unused. -/
def decode_text (tokens : List Nat) (merge_rules : List MergeRule)
    (start_token_idx : Nat) : PyStrResult :=
  let current := expand_all tokens merge_rules
  if current.all (fun b => b < 256) then
    match decodeUtf8 current with
    | some cs => .ok (String.mk cs)
    | none => .ok (decodeFailedMessage current)
  else .valueError

/-! ### Basic facts about `merge` -/

/-- The early-exit guard in `merge` is redundant: on sequences of length
below 2 the scan returns its input as well. -/
theorem merge_eq_scan (ids : List Nat) (p : Nat × Nat) (c : Nat) :
    merge ids p c = mergeScan ids p c := by
  rcases ids with _ | ⟨a, _ | ⟨b, rest⟩⟩ <;> simp [merge, mergeScan]

/-- The first element of a scan result is either the first input token or
the replacement token. -/
theorem mergeScan_cons_head (b : Nat) (rest : List Nat) (p : Nat × Nat) (c : Nat) :
    ∃ tl, mergeScan (b :: rest) p c = b :: tl ∨ mergeScan (b :: rest) p c = c :: tl := by
  cases rest with
  | nil => exact ⟨[], Or.inl rfl⟩
  | cons b2 rest2 =>
    rw [mergeScan]
    split
    · exact ⟨_, Or.inr rfl⟩
    · exact ⟨_, Or.inl rfl⟩

/-- When the replacement token differs from both components of the pair,
the scan output contains no adjacent occurrence of the pair. -/
theorem pair_not_in_mergeScan : ∀ (ids : List Nat) (p : Nat × Nat) (c : Nat),
    c ≠ p.1 → c ≠ p.2 → p ∉ find_token_pairs (mergeScan ids p c) := by
  intro ids p c
  induction ids, p, c using mergeScan.induct with
  | case1 a b rest p idx hab ih =>
    intro h1 h2
    rw [mergeScan, if_pos hab]
    rcases hM : mergeScan rest p idx with _ | ⟨m, tl⟩
    · intro hmem; simp [find_token_pairs] at hmem
    · rw [find_token_pairs]
      intro hmem
      rcases List.mem_cons.mp hmem with hhd | htl
      · exact h1 (by rw [hhd])
      · exact ih h1 h2 (hM ▸ htl)
  | case2 a b rest p idx hab ih =>
    intro h1 h2
    rw [mergeScan, if_neg hab]
    obtain ⟨tl, hsc | hsc⟩ := mergeScan_cons_head b rest p idx
    · rw [hsc]
      rw [find_token_pairs]
      intro hmem
      rcases List.mem_cons.mp hmem with hhd | htl
      · exact hab ⟨by rw [hhd], by rw [hhd]⟩
      · exact ih h1 h2 (hsc ▸ htl)
    · rw [hsc]
      rw [find_token_pairs]
      intro hmem
      rcases List.mem_cons.mp hmem with hhd | htl
      · exact h2 (by rw [hhd])
      · exact ih h1 h2 (hsc ▸ htl)
  | case3 ids p idx hno =>
    intro h1 h2
    rcases ids with _ | ⟨a, _ | ⟨b, rest⟩⟩
    · simp [mergeScan, find_token_pairs]
    · simp [mergeScan, find_token_pairs]
    · exact absurd rfl (hno a b rest)

/-- A sequence with no adjacent occurrence of the pair is left unchanged by
the scan. -/
theorem mergeScan_of_not_mem : ∀ (ids : List Nat) (p : Nat × Nat) (c : Nat),
    p ∉ find_token_pairs ids → mergeScan ids p c = ids := by
  intro ids p c
  induction ids, p, c using mergeScan.induct with
  | case1 a b rest p idx hab ih =>
    intro h
    exfalso
    apply h
    rw [find_token_pairs]
    have hp : ((a, b) : Nat × Nat) = p := by
      obtain ⟨ha, hb⟩ := hab; rw [ha, hb]
    rw [hp]
    exact List.mem_cons_self p _
  | case2 a b rest p idx hab ih =>
    intro h
    rw [find_token_pairs] at h
    rw [mergeScan, if_neg hab, ih (fun hm => h (List.mem_cons_of_mem _ hm))]
  | case3 ids p idx hno =>
    intro h
    rcases ids with _ | ⟨a, _ | ⟨b, rest⟩⟩
    · rfl
    · rfl
    · exact absurd rfl (hno a b rest)

/-! ### Facts about `most_common_1` and sequence lengths -/

/-- The best-so-far fold keeps a pair from the list together with its exact
count. -/
theorem best_fold_spec (tps : List (Nat × Nat)) :
    ∀ (ks : List (Nat × Nat)) (best : (Nat × Nat) × Nat),
      best.2 = tps.count best.1 → best.1 ∈ tps → (∀ k ∈ ks, k ∈ tps) →
      (ks.foldl (best_step tps) best).2 = tps.count (ks.foldl (best_step tps) best).1 ∧
      (ks.foldl (best_step tps) best).1 ∈ tps := by
  intro ks
  induction ks with
  | nil => intro best h1 h2 _; exact ⟨h1, h2⟩
  | cons k ks ih =>
    intro best h1 h2 h3
    simp only [List.foldl_cons]
    apply ih
    · unfold best_step
      split
      · rfl
      · exact h1
    · unfold best_step
      split
      · exact h3 k (List.mem_cons_self _ _)
      · exact h2
    · intro k2 hk2
      exact h3 k2 (List.mem_cons_of_mem _ hk2)

/-- A returned best pair occurs in the pair list and carries its exact
count. -/
theorem most_common_1_spec (tps : List (Nat × Nat)) (p : Nat × Nat) (c : Nat)
    (h : most_common_1 tps = some (p, c)) : c = tps.count p ∧ p ∈ tps := by
  match tps with
  | [] => simp [most_common_1] at h
  | k :: ks =>
    rw [most_common_1] at h
    have hfold := best_fold_spec (k :: ks) ks (k, (k :: ks).count k) rfl
      (List.mem_cons_self _ _) (fun k2 hk2 => List.mem_cons_of_mem _ hk2)
    have heq : ks.foldl (best_step (k :: ks)) (k, (k :: ks).count k) = (p, c) :=
      Option.some.inj h
    rw [heq] at hfold
    exact hfold

/-- Sequences of length below 2 have no adjacent pairs. -/
theorem find_token_pairs_short (ids : List Nat) (h : ids.length ≤ 1) :
    find_token_pairs ids = [] := by
  rcases ids with _ | ⟨a, _ | ⟨b, rest⟩⟩
  · rfl
  · rfl
  · simp at h

/-- The scan never lengthens a sequence. -/
theorem mergeScan_length_le : ∀ (ids : List Nat) (p : Nat × Nat) (c : Nat),
    (mergeScan ids p c).length ≤ ids.length := by
  intro ids p c
  induction ids, p, c using mergeScan.induct with
  | case1 a b rest p idx hab ih =>
    rw [mergeScan, if_pos hab]
    simp only [List.length_cons]
    omega
  | case2 a b rest p idx hab ih =>
    rw [mergeScan, if_neg hab]
    simp only [List.length_cons] at ih ⊢
    omega
  | case3 ids p idx hno =>
    rcases ids with _ | ⟨a, _ | ⟨b, rest⟩⟩
    · exact Nat.le_refl _
    · exact Nat.le_refl _
    · exact absurd rfl (hno a b rest)

/-- If the pair occurs somewhere adjacent, the scan strictly shortens the
sequence. -/
theorem mergeScan_length_lt : ∀ (ids : List Nat) (p : Nat × Nat) (c : Nat),
    p ∈ find_token_pairs ids → (mergeScan ids p c).length < ids.length := by
  intro ids p c
  induction ids, p, c using mergeScan.induct with
  | case1 a b rest p idx hab ih =>
    intro _
    rw [mergeScan, if_pos hab]
    have := mergeScan_length_le rest p idx
    simp only [List.length_cons]
    omega
  | case2 a b rest p idx hab ih =>
    intro hmem
    rw [mergeScan, if_neg hab]
    rw [find_token_pairs] at hmem
    rcases List.mem_cons.mp hmem with hhd | htl
    · exact absurd ⟨by rw [hhd], by rw [hhd]⟩ hab
    · have := ih htl
      simp only [List.length_cons] at this ⊢
      omega
  | case3 ids p idx hno =>
    intro hmem
    rcases ids with _ | ⟨a, _ | ⟨b, rest⟩⟩
    · simp [find_token_pairs] at hmem
    · simp [find_token_pairs] at hmem
    · exact absurd rfl (hno a b rest)

/-- Every token of a scan output is an input token or the replacement. -/
theorem mem_mergeScan : ∀ (ids : List Nat) (p : Nat × Nat) (c : Nat) (x : Nat),
    x ∈ mergeScan ids p c → x ∈ ids ∨ x = c := by
  intro ids p c
  induction ids, p, c using mergeScan.induct with
  | case1 a b rest p idx hab ih =>
    intro x hx
    rw [mergeScan, if_pos hab] at hx
    rcases List.mem_cons.mp hx with hhd | htl
    · exact Or.inr hhd
    · rcases ih x htl with hin | heq
      · exact Or.inl (by simp [hin])
      · exact Or.inr heq
  | case2 a b rest p idx hab ih =>
    intro x hx
    rw [mergeScan, if_neg hab] at hx
    rcases List.mem_cons.mp hx with hhd | htl
    · exact Or.inl (by simp [hhd])
    · rcases ih x htl with hin | heq
      · exact Or.inl (by simp at hin ⊢; tauto)
      · exact Or.inr heq
  | case3 ids p idx hno =>
    intro x hx
    rcases ids with _ | ⟨a, _ | ⟨b, rest⟩⟩
    · simp [mergeScan] at hx
    · exact Or.inl hx
    · exact absurd rfl (hno a b rest)

/-! ### Claim C2 — the scanning behaviour of `merge` -/

/-- C2: `merge` scans left to right; at each position, if the current and
next token equal the pair's two components it emits the new token and
advances by 2, otherwise it emits the current token and advances by 1, and
every sequence of length below 2 is returned unchanged. -/
theorem merge_scan_spec :
    (∀ (ids : List Nat) (p : Nat × Nat) (c : Nat),
      ids.length < 2 → merge ids p c = ids) ∧
    (∀ (a b : Nat) (rest : List Nat) (p : Nat × Nat) (c : Nat),
      merge (a :: b :: rest) p c =
        if a = p.1 ∧ b = p.2 then c :: merge rest p c
        else a :: merge (b :: rest) p c) := by
  constructor
  · intro ids p c h
    simp [merge, h]
  · intro a b rest p c
    rw [merge_eq_scan, merge_eq_scan, merge_eq_scan, mergeScan]

/-- Witness for C2: a concrete short sequence is returned unchanged. -/
theorem merge_scan_spec_witness : ([5] : List Nat).length < 2 ∧ merge [5] (1, 2) 9 = [5] :=
  ⟨by decide, merge_scan_spec.1 [5] (1, 2) 9 (by decide)⟩

/-! ### Claim C3 — the concrete `"aaaa"` training scenario -/

/-- C3: training on `[97, 97, 97, 97]` with `start_token_idx = 256` and a
round budget of 2 returns final tokens `[256, 256]`, the single rule
`{pair := (97, 97), new_token := 256, count := 3}` and next unused id 257;
in round 2 the best remaining pair `(256, 256)` has count `1 < 2`, which is
the branch that stops the loop. -/
theorem train_aaaa :
    perform_merges [97, 97, 97, 97] 2 256 = ([256, 256], 257, [⟨(97, 97), 256, 3⟩]) ∧
    most_common_1 (find_token_pairs [256, 256]) = some ((256, 256), 1) ∧ (1 : Nat) < 2 := by
  decide

/-! ### Claim C9 — idempotence of `merge` -/

/-- C9 counterexample: with a new token that collides with a pair
component, `merge` is not idempotent.  `merge [1, 2, 2] (1, 2) 1` yields
`[1, 2]`, which still contains the adjacent pair `(1, 2)` (the emitted `1`
followed by the surviving `2`), so a second application merges again and
yields `[1]`. -/
theorem merge_not_idempotent :
    ¬ merge (merge [1, 2, 2] (1, 2) 1) (1, 2) 1 = merge [1, 2, 2] (1, 2) 1 := by
  decide

/-- C9 amended: applying the same merge rule twice changes nothing after
the first pass, provided the new token differs from both components of the
pair (true of every rule learned with fresh composite ids); the output of
`merge` is then already free of adjacent occurrences of the pair. -/
theorem merge_idempotent_of_fresh (s : List Nat) (p : Nat × Nat) (c : Nat)
    (h1 : c ≠ p.1) (h2 : c ≠ p.2) : merge (merge s p c) p c = merge s p c := by
  rw [merge_eq_scan s, merge_eq_scan (mergeScan s p c),
    mergeScan_of_not_mem _ _ _ (pair_not_in_mergeScan s p c h1 h2)]

/-- Witness for the amended C9 at a concrete input. -/
theorem merge_idempotent_of_fresh_witness :
    (9 : Nat) ≠ ((1, 2) : Nat × Nat).1 ∧ (9 : Nat) ≠ ((1, 2) : Nat × Nat).2 ∧
    merge (merge [1, 1, 2, 1, 2] (1, 2) 9) (1, 2) 9 = merge [1, 1, 2, 1, 2] (1, 2) 9 :=
  ⟨by decide, by decide,
    merge_idempotent_of_fresh [1, 1, 2, 1, 2] (1, 2) 9 (by decide) (by decide)⟩

/-! ### Claim C10 — `start_token_idx` does not influence encode/decode -/

/-- C10: the `start_token_idx` parameter of `encode_text` and `decode_text`
has no effect on their results; composite ids come solely from the
`new_token` fields stored in the rule list. -/
theorem start_token_idx_unused (text : List Char) (tokens : List Nat)
    (rules : List MergeRule) (s1 s2 : Nat) :
    encode_text text rules s1 = encode_text text rules s2 ∧
    decode_text tokens rules s1 = decode_text tokens rules s2 :=
  ⟨rfl, rfl⟩

/-! ### Claim C5 — behaviour of `decode_text` on malformed token streams -/

/-- C5 counterexample: decoding the token sequence `[300]` with an empty
rule list leaves the value 300 in the buffer, so `bytes(current_tokens)`
raises an uncaught `ValueError` — an unrelated fault, not a structured
`DecodeError`. -/
theorem decode_text_raises_value_error :
    decode_text [300] [] 256 = PyStrResult.valueError := by decide

/-- C5 amended: `decode_text` has exactly two failure behaviours — when the
fully expanded buffer retains a value above 255, `bytes()` raises an
uncaught `ValueError`; when the buffer is all bytes but is not valid UTF-8,
the `UnicodeDecodeError` is caught and a plain placeholder string listing
the expanded buffer is returned, in the same type as a successful decode
(not a structured, distinguishable error value). -/
theorem decode_text_failure_modes (tokens : List Nat) (rules : List MergeRule) (s : Nat) :
    ((expand_all tokens rules).all (fun b => b < 256) = false →
      decode_text tokens rules s = .valueError) ∧
    ((expand_all tokens rules).all (fun b => b < 256) = true →
      decodeUtf8 (expand_all tokens rules) = none →
      decode_text tokens rules s = .ok (decodeFailedMessage (expand_all tokens rules))) := by
  constructor
  · intro h
    simp [decode_text, h]
  · intro h1 h2
    simp [decode_text, h1, h2]

/-- Witness for the amended C5: the lone continuation byte `[128]` is not
valid UTF-8, and `decode_text` returns the placeholder string for it. -/
theorem decode_text_failure_modes_witness :
    (expand_all [128] []).all (fun b => b < 256) = true ∧
    decodeUtf8 (expand_all [128] []) = none ∧
    decode_text [128] [] 256 = .ok (decodeFailedMessage (expand_all [128] [])) :=
  ⟨by decide, by decide,
    (decode_text_failure_modes [128] [] 256).2 (by decide) (by decide)⟩

/-! ### Claim C6 — no structured stop reason is reported -/

/-- C6 counterexample: on `[97, 97, 97, 97]` a budget-1 run stops by
exhausting the round limit while a budget-2 run stops because the best
remaining pair count 1 is below the threshold 2 (third conjunct), yet the
two runs return identical values — so the returned value carries no
structured stop reason distinguishing `reached_round_limit` from
`no_pair_frequency_above_threshold`. -/
theorem stop_reason_not_reported :
    perform_merges [97, 97, 97, 97] 1 256 = perform_merges [97, 97, 97, 97] 2 256 ∧
    (perform_merges [97, 97, 97, 97] 1 256).2.2.length = 1 ∧
    most_common_1 (find_token_pairs (perform_merges [97, 97, 97, 97] 2 256).1) =
      some ((256, 256), 1) := by
  decide

/-! ### The training loop: invariants, composition, and stuck states -/

/-- A state with no pairs left does not change, whatever the budget. -/
theorem loop_stuck_none (cur : List Nat) (next : Nat) (rules : List MergeRule)
    (h : most_common_1 (find_token_pairs cur) = none) :
    ∀ d, perform_merges_loop d cur next rules = (cur, next, rules) := by
  intro d
  cases d with
  | zero => rfl
  | succ d => rw [perform_merges_loop, h]

/-- A state whose best pair count is below 2 does not change, whatever the
budget. -/
theorem loop_stuck_low (cur : List Nat) (next : Nat) (rules : List MergeRule)
    (pc : (Nat × Nat) × Nat) (h : most_common_1 (find_token_pairs cur) = some pc)
    (hc : pc.2 < 2) :
    ∀ d, perform_merges_loop d cur next rules = (cur, next, rules) := by
  intro d
  cases d with
  | zero => rfl
  | succ d => rw [perform_merges_loop, h]; exact if_pos hc

/-- A state of length at most 1 does not change, whatever the budget. -/
theorem loop_stuck_short (cur : List Nat) (next : Nat) (rules : List MergeRule)
    (h : cur.length ≤ 1) :
    ∀ d, perform_merges_loop d cur next rules = (cur, next, rules) :=
  loop_stuck_none cur next rules (by rw [find_token_pairs_short cur h]; rfl)

/-- One unfolding of the loop in the emitting case. -/
theorem loop_succ_emit (fuel : Nat) (cur : List Nat) (next : Nat)
    (rules : List MergeRule) (pc : (Nat × Nat) × Nat)
    (hmc : most_common_1 (find_token_pairs cur) = some pc) (hcnt : ¬pc.2 < 2) :
    perform_merges_loop (fuel + 1) cur next rules =
      if (merge cur pc.1 next).length ≤ 1 then
        (merge cur pc.1 next, next + 1, rules ++ [⟨pc.1, next, pc.2⟩])
      else
        perform_merges_loop fuel (merge cur pc.1 next) (next + 1)
          (rules ++ [⟨pc.1, next, pc.2⟩]) := by
  rw [perform_merges_loop, hmc]
  exact if_neg hcnt

/-- Master invariant of the training loop: the returned rule list extends
the accumulator by some `new`, the next token id advances by `new.length`,
replaying `new` from the entry sequence yields the final sequence, the
ids in `new` count up from `next`, at most `fuel` rules are emitted, the
length never grows, and it strictly shrinks as soon as a rule is emitted. -/
theorem perform_merges_loop_spec :
    ∀ (fuel : Nat) (cur : List Nat) (next : Nat) (rules0 : List MergeRule),
    ∃ new : List MergeRule,
      (perform_merges_loop fuel cur next rules0).2.2 = rules0 ++ new ∧
      (perform_merges_loop fuel cur next rules0).2.1 = next + new.length ∧
      apply_rules cur new = (perform_merges_loop fuel cur next rules0).1 ∧
      (∀ j (hj : j < new.length), (new.get ⟨j, hj⟩).new_token = next + j) ∧
      new.length ≤ fuel ∧
      (perform_merges_loop fuel cur next rules0).1.length ≤ cur.length ∧
      (new ≠ [] → (perform_merges_loop fuel cur next rules0).1.length < cur.length) := by
  intro fuel
  induction fuel with
  | zero =>
    intro cur next rules0
    exact ⟨[], by simp [perform_merges_loop, apply_rules]⟩
  | succ fuel ih =>
    intro cur next rules0
    cases hmc : most_common_1 (find_token_pairs cur) with
    | none =>
      rw [loop_stuck_none cur next rules0 hmc]
      exact ⟨[], by simp [apply_rules]⟩
    | some pc =>
      by_cases hcnt : pc.2 < 2
      · rw [loop_stuck_low cur next rules0 pc hmc hcnt]
        exact ⟨[], by simp [apply_rules]⟩
      · obtain ⟨hcount, hmem⟩ := most_common_1_spec _ _ _ hmc
        have hpos : pc.1 ∈ find_token_pairs cur := hmem
        have hlt : (merge cur pc.1 next).length < cur.length := by
          rw [merge_eq_scan]
          exact mergeScan_length_lt cur pc.1 next hpos
        rw [loop_succ_emit fuel cur next rules0 pc hmc hcnt]
        by_cases hshort : (merge cur pc.1 next).length ≤ 1
        · rw [if_pos hshort]
          refine ⟨[⟨pc.1, next, pc.2⟩], rfl, by simp, by simp [apply_rules], ?_, by simp, Nat.le_of_lt hlt, fun _ => hlt⟩
          intro j hj
          have hj0 : j = 0 := by simpa using Nat.lt_one_iff.mp (by simpa using hj)
          subst hj0
          rfl
        · rw [if_neg hshort]
          obtain ⟨new', h1, h2, h3, h4, h5, h6, h7⟩ :=
            ih (merge cur pc.1 next) (next + 1) (rules0 ++ [⟨pc.1, next, pc.2⟩])
          refine ⟨⟨pc.1, next, pc.2⟩ :: new', ?_, ?_, ?_, ?_, ?_, ?_, ?_⟩
          · rw [h1, List.append_assoc]
            rfl
          · rw [h2]
            simp only [List.length_cons]
            omega
          · rw [← h3]
            rfl
          · intro j hj
            cases j with
            | zero => rfl
            | succ j =>
              have hj' : j < new'.length := by
                simp only [List.length_cons] at hj
                omega
              have := h4 j hj'
              simp only [List.get_cons_succ]
              rw [this]
              omega
          · simp only [List.length_cons]
            omega
          · exact Nat.le_of_lt (Nat.lt_of_le_of_lt h6 hlt)
          · intro _
            exact Nat.lt_of_le_of_lt h6 hlt

/-- Splitting the budget: running `k + d` rounds is running `k` rounds and
then `d` more from the state reached. -/
theorem perform_merges_loop_add :
    ∀ (k d : Nat) (cur : List Nat) (next : Nat) (rules : List MergeRule),
    perform_merges_loop (k + d) cur next rules =
      perform_merges_loop d (perform_merges_loop k cur next rules).1
        (perform_merges_loop k cur next rules).2.1
        (perform_merges_loop k cur next rules).2.2 := by
  intro k
  induction k with
  | zero =>
    intro d cur next rules
    rw [Nat.zero_add]
    rfl
  | succ k ih =>
    intro d cur next rules
    have harith : k + 1 + d = (k + d) + 1 := by omega
    rw [harith]
    cases hmc : most_common_1 (find_token_pairs cur) with
    | none =>
      rw [loop_stuck_none cur next rules hmc, loop_stuck_none cur next rules hmc,
        loop_stuck_none cur next rules hmc]
    | some pc =>
      by_cases hcnt : pc.2 < 2
      · rw [loop_stuck_low cur next rules pc hmc hcnt,
          loop_stuck_low cur next rules pc hmc hcnt,
          loop_stuck_low cur next rules pc hmc hcnt]
      · rw [loop_succ_emit (k + d) cur next rules pc hmc hcnt,
          loop_succ_emit k cur next rules pc hmc hcnt]
        by_cases hshort : (merge cur pc.1 next).length ≤ 1
        · rw [if_pos hshort, if_pos hshort]
          dsimp only
          exact (loop_stuck_short _ _ _ hshort d).symm
        · rw [if_neg hshort, if_neg hshort]
          exact ih d (merge cur pc.1 next) (next + 1) (rules ++ [⟨pc.1, next, pc.2⟩])

/-- A run that stops before exhausting its budget is stuck: giving the
reached state any further budget changes nothing. -/
theorem loop_stuck_of_unemitted :
    ∀ (fuel : Nat) (cur : List Nat) (next : Nat) (rules0 : List MergeRule),
    (perform_merges_loop fuel cur next rules0).2.2.length < rules0.length + fuel →
    ∀ d, perform_merges_loop d (perform_merges_loop fuel cur next rules0).1
        (perform_merges_loop fuel cur next rules0).2.1
        (perform_merges_loop fuel cur next rules0).2.2 =
      perform_merges_loop fuel cur next rules0 := by
  intro fuel
  induction fuel with
  | zero =>
    intro cur next rules0 hlen
    simp [perform_merges_loop] at hlen
  | succ fuel ih =>
    intro cur next rules0 hlen d
    cases hmc : most_common_1 (find_token_pairs cur) with
    | none =>
      rw [loop_stuck_none cur next rules0 hmc] at hlen ⊢
      exact loop_stuck_none cur next rules0 hmc d
    | some pc =>
      by_cases hcnt : pc.2 < 2
      · rw [loop_stuck_low cur next rules0 pc hmc hcnt] at hlen ⊢
        exact loop_stuck_low cur next rules0 pc hmc hcnt d
      · rw [loop_succ_emit fuel cur next rules0 pc hmc hcnt] at hlen ⊢
        by_cases hshort : (merge cur pc.1 next).length ≤ 1
        · rw [if_pos hshort] at hlen ⊢
          dsimp only
          exact loop_stuck_short (merge cur pc.1 next) (next + 1)
            (rules0 ++ [⟨pc.1, next, pc.2⟩]) hshort d
        · rw [if_neg hshort] at hlen ⊢
          apply ih
          simp only [List.length_append, List.length_cons, List.length_nil] at hlen ⊢
          omega

/-! ### Claim C7 — monotonic rule ids -/

/-- C7: in any training run with start id `S`, the `i`-th emitted rule
(0-based) has `new_token = S + i`, and the returned next unused token id
equals `S` plus the number of rules emitted. -/
theorem rule_ids_monotonic (toks : List Nat) (n S : Nat) :
    (∀ i (hi : i < (perform_merges toks n S).2.2.length),
      ((perform_merges toks n S).2.2.get ⟨i, hi⟩).new_token = S + i) ∧
    (perform_merges toks n S).2.1 = S + (perform_merges toks n S).2.2.length := by
  obtain ⟨new, h1, h2, _, h4, _, _, _⟩ := perform_merges_loop_spec n toks S []
  rw [List.nil_append] at h1
  simp only [perform_merges]
  constructor
  · intro i hi
    rw [List.get_of_eq h1]
    exact h4 i (h1 ▸ hi)
  · rw [h2, h1]

/-- Witness for C7 at the `"aaaa"` run: the single rule has id `256 + 0`. -/
theorem rule_ids_monotonic_witness :
    ((perform_merges [97, 97, 97, 97] 2 256).2.2.get ⟨0, by decide⟩).new_token = 256 + 0 :=
  (rule_ids_monotonic [97, 97, 97, 97] 2 256).1 0 (by decide)

/-! ### Claim C6 — what `perform_merges` returns -/

/-- C6 amended: `perform_merges` returns exactly the final token sequence,
the next unused token id (start plus number of rules), and the ordered rule
list whose replay produces the final sequence — and nothing else; no stop
reason is part of the result. -/
theorem perform_merges_result_shape (toks : List Nat) (n S : Nat) :
    (perform_merges toks n S).2.1 = S + (perform_merges toks n S).2.2.length ∧
    apply_rules toks (perform_merges toks n S).2.2 = (perform_merges toks n S).1 := by
  obtain ⟨new, h1, h2, h3, _, _, _, _⟩ := perform_merges_loop_spec n toks S []
  rw [List.nil_append] at h1
  simp only [perform_merges]
  exact ⟨by rw [h2, h1], by rw [h1]; exact h3⟩

/-! ### Claim C8 — compression monotonicity -/

/-- C8: the final token sequence is never longer than the input, length
never increases from one round budget to the next, and as soon as at least
one rule is emitted the final sequence is strictly shorter than the input
(so equality of lengths forces an empty rule list). -/
theorem compression_monotonic (toks : List Nat) (n S : Nat) :
    (perform_merges toks n S).1.length ≤ toks.length ∧
    (∀ k, (perform_merges toks (k + 1) S).1.length ≤ (perform_merges toks k S).1.length) ∧
    ((perform_merges toks n S).2.2 ≠ [] → (perform_merges toks n S).1.length < toks.length) := by
  refine ⟨?_, ?_, ?_⟩
  · obtain ⟨new, _, _, _, _, _, h6, _⟩ := perform_merges_loop_spec n toks S []
    exact h6
  · intro k
    have hP := perform_merges_loop_add k 1 toks S []
    simp only [perform_merges]
    rw [hP]
    obtain ⟨new, _, _, _, _, _, h6, _⟩ := perform_merges_loop_spec 1
      (perform_merges_loop k toks S []).1 (perform_merges_loop k toks S []).2.1
      (perform_merges_loop k toks S []).2.2
    exact h6
  · obtain ⟨new, h1, _, _, _, _, _, h7⟩ := perform_merges_loop_spec n toks S []
    rw [List.nil_append] at h1
    intro hne
    apply h7
    intro hnil
    apply hne
    simp only [perform_merges]
    rw [h1, hnil]

/-- Witness for C8: the `"aaaa"` run emits a rule and strictly compresses
4 tokens to 2. -/
theorem compression_monotonic_witness :
    (perform_merges [97, 97, 97, 97] 2 256).2.2 ≠ [] ∧
    (perform_merges [97, 97, 97, 97] 2 256).1.length < ([97, 97, 97, 97] : List Nat).length :=
  ⟨by decide, (compression_monotonic [97, 97, 97, 97] 2 256).2.2 (by decide)⟩

/-! ### Claim C4 — encoding replays the training run -/

/-- C4: `encode_text` replays the learned rules in order via the same
`merge` function, so on the training text it reproduces the final training
sequence; and replaying any prefix of `k ≤ n` rules reproduces the
sequence the training run held after `k` rounds (the state returned by a
budget-`k` run). -/
theorem encode_replays_training (t : List Char) (n S k : Nat) (hk : k ≤ n) :
    encode_text t (perform_merges (text_to_tokens t) n S).2.2 S =
      (perform_merges (text_to_tokens t) n S).1 ∧
    encode_text t ((perform_merges (text_to_tokens t) n S).2.2.take k) S =
      (perform_merges (text_to_tokens t) k S).1 := by
  constructor
  · obtain ⟨new, h1, _, h3, _, _, _, _⟩ := perform_merges_loop_spec n (text_to_tokens t) S []
    rw [List.nil_append] at h1
    simp only [encode_text, perform_merges]
    rw [h1]
    exact h3
  · obtain ⟨new1, k1, k2, k3, k4, k5, k6, k7⟩ :=
      perform_merges_loop_spec k (text_to_tokens t) S []
    rw [List.nil_append] at k1
    have hP := perform_merges_loop_add k (n - k) (text_to_tokens t) S []
    have hn : k + (n - k) = n := by omega
    rw [hn] at hP
    obtain ⟨new2, m1, m2, m3, m4, m5, m6, m7⟩ := perform_merges_loop_spec (n - k)
      (perform_merges_loop k (text_to_tokens t) S []).1
      (perform_merges_loop k (text_to_tokens t) S []).2.1
      (perform_merges_loop k (text_to_tokens t) S []).2.2
    by_cases h2e : new2 = []
    · simp only [encode_text, perform_merges]
      rw [hP, m1, k1, h2e, List.append_nil, List.take_of_length_le k5]
      exact k3
    · have hlen : new1.length = k := by
        by_contra hne
        have hlt : new1.length < k := Nat.lt_of_le_of_ne k5 hne
        have hstuck := loop_stuck_of_unemitted k (text_to_tokens t) S []
          (by rw [k1]; simpa using hlt) (n - k)
        have heq : (perform_merges_loop n (text_to_tokens t) S []).2.2 =
            (perform_merges_loop k (text_to_tokens t) S []).2.2 := by
          rw [hP, hstuck]
        rw [hP, m1] at heq
        have hlg := congrArg List.length heq
        simp only [List.length_append] at hlg
        have h0 : new2.length = 0 := by omega
        exact h2e (List.length_eq_zero.mp h0)
      simp only [encode_text, perform_merges]
      rw [hP, m1, k1, List.take_left' hlen]
      exact k3

/-- Witness for C4: replaying the 1-rule prefix of the `"aaaa"` ruleset
reproduces the budget-1 training state. -/
theorem encode_replays_training_witness :
    (1 : Nat) ≤ 2 ∧
    encode_text ['a', 'a', 'a', 'a']
        ((perform_merges (text_to_tokens ['a', 'a', 'a', 'a']) 2 256).2.2.take 1) 256 =
      (perform_merges (text_to_tokens ['a', 'a', 'a', 'a']) 1 256).1 :=
  ⟨by decide, (encode_replays_training ['a', 'a', 'a', 'a'] 2 256 1 (by decide)).2⟩

/-! ### Expansion undoes merging -/

/-- Expanding the replacement token undoes a scan, provided the token did
not already occur in the input. -/
theorem expand_mergeScan : ∀ (ids : List Nat) (p : Nat × Nat) (c : Nat),
    c ∉ ids → expand_token (mergeScan ids p c) p c = ids := by
  intro ids p c
  induction ids, p, c using mergeScan.induct with
  | case1 a b rest p idx hab ih =>
    intro hc
    rw [mergeScan, if_pos hab, expand_token, if_pos rfl,
      ih (fun hm => hc (List.mem_cons_of_mem _ (List.mem_cons_of_mem _ hm)))]
    obtain ⟨ha, hb⟩ := hab
    rw [← ha, ← hb]
  | case2 a b rest p idx hab ih =>
    intro hc
    have hne : a ≠ idx := fun h => hc (List.mem_cons.mpr (Or.inl h.symm))
    rw [mergeScan, if_neg hab, expand_token, if_neg hne,
      ih (fun hm => hc (List.mem_cons_of_mem _ hm))]
  | case3 ids p idx hno =>
    intro hc
    rcases ids with _ | ⟨a, _ | ⟨b, rest⟩⟩
    · rfl
    · have hne : a ≠ idx := fun h => hc (List.mem_cons.mpr (Or.inl h.symm))
      simp [mergeScan, expand_token, hne]
    · exact absurd rfl (hno a b rest)

/-- Expanding the new token undoes `merge` when the token is fresh. -/
theorem expand_merge (ids : List Nat) (p : Nat × Nat) (c : Nat) (hc : c ∉ ids) :
    expand_token (merge ids p c) p c = ids := by
  rw [merge_eq_scan]
  exact expand_mergeScan ids p c hc

/-- Peeling the last rule off the reverse-order expansion loop. -/
theorem expand_all_concat (ts : List Nat) (rs : List MergeRule) (r : MergeRule) :
    expand_all ts (rs ++ [r]) = expand_all (expand_token ts r.pair r.new_token) rs := by
  unfold expand_all
  rw [List.reverse_append]
  rfl

/-- Peeling the last rule off the forward replay loop. -/
theorem apply_rules_concat (ts : List Nat) (rs : List MergeRule) (r : MergeRule) :
    apply_rules ts (rs ++ [r]) = merge (apply_rules ts rs) r.pair r.new_token := by
  unfold apply_rules
  rw [List.foldl_append]
  rfl

/-- The decoding loop inverts the encoding loop: expanding all rules in
reverse order undoes replaying them in order, provided each rule's new
token is absent from the sequence at the point just before that rule is
replayed. -/
theorem expand_all_apply_rules : ∀ (rs : List MergeRule) (ts : List Nat),
    (∀ i (hi : i < rs.length), (rs.get ⟨i, hi⟩).new_token ∉ apply_rules ts (rs.take i)) →
    expand_all (apply_rules ts rs) rs = ts := by
  intro rs
  induction rs using List.reverseRecOn with
  | nil => intro ts _; rfl
  | append_singleton rs r ih =>
    intro ts h
    have hlast : r.new_token ∉ apply_rules ts rs := by
      have hi : rs.length < (rs ++ [r]).length := by simp
      have hg := h rs.length hi
      rw [List.get_last (by simp)] at hg
      rwa [List.take_left] at hg
    rw [apply_rules_concat, expand_all_concat, expand_merge _ _ _ hlast]
    apply ih
    intro i hi
    have hi' : i < (rs ++ [r]).length := by simp; omega
    have hg := h i hi'
    have hget : (rs ++ [r]).get ⟨i, hi'⟩ = rs.get ⟨i, hi⟩ := by
      rw [List.get_eq_getElem, List.get_eq_getElem, List.getElem_append_left hi]
    rw [hget, List.take_append_of_le_length (Nat.le_of_lt hi)] at hg
    exact hg

/-- Replaying a merge can only introduce the rule's own new token. -/
theorem mem_apply_rules_merge (ts : List Nat) (p : Nat × Nat) (c : Nat) (x : Nat)
    (hx : x ∈ merge ts p c) : x ∈ ts ∨ x = c := by
  rw [merge_eq_scan] at hx
  exact mem_mergeScan ts p c x hx

/-- Token bound after replaying a prefix of sequentially numbered rules:
starting from tokens below `S` and replaying the first `i` rules whose new
tokens count up from `S`, every token stays below `S + i`. -/
theorem apply_rules_take_bound (rs : List MergeRule) (ts : List Nat) (S : Nat)
    (hts : ∀ x ∈ ts, x < S)
    (hids : ∀ j (hj : j < rs.length), (rs.get ⟨j, hj⟩).new_token = S + j) :
    ∀ i, i ≤ rs.length → ∀ x ∈ apply_rules ts (rs.take i), x < S + i := by
  intro i
  induction i with
  | zero =>
    intro _ x hx
    simpa using hts x (by simpa [apply_rules] using hx)
  | succ i ih =>
    intro hle x hx
    have hi : i < rs.length := by omega
    rw [← List.take_concat_get rs i hi, List.concat_eq_append, apply_rules_concat] at hx
    rcases mem_apply_rules_merge _ _ _ _ hx with hin | heq
    · have := ih (by omega) x hin
      omega
    · have hid := hids i hi
      simp only [List.get_eq_getElem, Fin.val_mk] at hid
      rw [heq]
      omega

/-! ### UTF-8: decoding inverts encoding -/

/-- Validity of a `Char` scalar value, as plain `Nat` bounds. -/
theorem char_toNat_valid (c : Char) :
    c.toNat < 55296 ∨ (57343 < c.toNat ∧ c.toNat < 1114112) := by
  rcases c.valid with h | ⟨ha, hb⟩
  · exact Or.inl (UInt32.toNat_lt_of_lt (by decide) h)
  · exact Or.inr ⟨UInt32.lt_toNat_of_lt (by decide) ha,
      UInt32.toNat_lt_of_lt (by decide) hb⟩

/-- Every byte produced by the UTF-8 encoder is below 256. -/
theorem utf8EncodeChar_lt_256 (c : Char) : ∀ b ∈ utf8EncodeChar c, b < 256 := by
  intro b hb
  have hv : c.toNat < 1114112 := by
    rcases char_toNat_valid c with h | ⟨_, h⟩
    · omega
    · exact h
  simp only [utf8EncodeChar] at hb
  split at hb
  · simp at hb
    omega
  · split at hb
    · simp at hb
      rcases hb with h | h <;> omega
    · split at hb
      · simp at hb
        rcases hb with h | h | h <;> omega
      · simp at hb
        rcases hb with h | h | h | h <;> omega

/-- Every byte of an encoded text is below 256. -/
theorem text_to_tokens_lt_256 : ∀ (t : List Char), ∀ x ∈ text_to_tokens t, x < 256 := by
  intro t
  induction t with
  | nil =>
    intro x hx
    simp [text_to_tokens] at hx
  | cons c cs ih =>
    intro x hx
    rw [text_to_tokens] at hx
    rcases List.mem_append.mp hx with h | h
    · exact utf8EncodeChar_lt_256 c x h
    · exact ih x h

/-- Each successful decoding step consumes at least one byte. -/
theorem decodeOne_rest_length : ∀ (bs : List Nat) (cr : Char × List Nat),
    decodeOne bs = some cr → cr.2.length < bs.length := by
  intro bs cr h
  rcases bs with _ | ⟨b1, _ | ⟨b2, _ | ⟨b3, _ | ⟨b4, bs4⟩⟩⟩⟩
  · simp [decodeOne] at h
  all_goals
    simp only [decodeOne.eq_def, decodeTail2.eq_def, decodeTail3.eq_def,
      decodeTail4.eq_def] at h
  all_goals
    split_ifs at h <;> (try simp at h) <;>
      (try (subst h
            simp
            try omega))

/-- Any fuel at least the length of the stream computes the decoder's
value. -/
theorem decodeUtf8Fuel_congr : ∀ (f1 : Nat) (bs : List Nat) (f2 : Nat),
    bs.length ≤ f1 → bs.length ≤ f2 →
    decodeUtf8Fuel f1 bs = decodeUtf8Fuel f2 bs := by
  intro f1
  induction f1 with
  | zero =>
    intro bs f2 h1 h2
    have hnil : bs = [] := List.length_eq_zero.mp (by omega)
    subst hnil
    cases f2 <;> rfl
  | succ f1 ih =>
    intro bs f2 h1 h2
    rcases bs with _ | ⟨b1, bs1⟩
    · cases f2 <;> rfl
    · rcases f2 with _ | f2
      · simp at h2
      · rw [decodeUtf8Fuel, decodeUtf8Fuel]
        cases hstep : decodeOne (b1 :: bs1) with
        | none => rfl
        | some cr =>
          have hlt := decodeOne_rest_length _ _ hstep
          simp only [List.length_cons] at h1 h2 hlt
          exact congrArg (Option.map _) (ih cr.2 f2 (by omega) (by omega))

/-- Unfolding the decoder after one successful step. -/
theorem decodeUtf8_cons_some (b : Nat) (l : List Nat) (c : Char) (rest : List Nat)
    (h : decodeOne (b :: l) = some (c, rest)) :
    decodeUtf8 (b :: l) = (decodeUtf8 rest).map (fun cs => c :: cs) := by
  have hlt := decodeOne_rest_length (b :: l) (c, rest) h
  simp only [List.length_cons] at hlt
  unfold decodeUtf8
  rw [show (b :: l).length = l.length + 1 from rfl, decodeUtf8Fuel, h]
  exact congrArg (Option.map _)
    (decodeUtf8Fuel_congr l.length rest rest.length (by omega) (Nat.le_refl _))

/-- Reading one encoded character off the front of a byte stream recovers
exactly that character and the remaining bytes. -/
theorem decodeOne_encodeChar (c : Char) (rest : List Nat) :
    decodeOne (utf8EncodeChar c ++ rest) = some (c, rest) := by
  have hv := char_toNat_valid c
  have hofNat : Char.ofNat c.toNat = c := Char.ofNat_toNat c
  by_cases h1 : c.toNat < 128
  · have henc : utf8EncodeChar c = [c.toNat] := by
      unfold utf8EncodeChar
      rw [if_pos h1]
    rw [henc, List.cons_append, List.nil_append]
    simp only [decodeOne.eq_def]
    rw [if_pos h1, hofNat]
  · by_cases h2 : c.toNat < 2048
    · have henc : utf8EncodeChar c = [192 + c.toNat / 64, 128 + c.toNat % 64] := by
        unfold utf8EncodeChar
        rw [if_neg h1, if_pos h2]
      rw [henc, List.cons_append, List.cons_append, List.nil_append]
      simp only [decodeOne.eq_def, decodeTail2.eq_def]
      rw [if_neg (by omega), if_neg (by omega), if_pos (by omega),
        if_pos (by constructor <;> omega)]
      have hval : (192 + c.toNat / 64 - 192) * 64 + (128 + c.toNat % 64 - 128) = c.toNat := by
        omega
      rw [hval, hofNat]
    · by_cases h3 : c.toNat < 65536
      · have henc : utf8EncodeChar c =
            [224 + c.toNat / 4096, 128 + (c.toNat / 64) % 64, 128 + c.toNat % 64] := by
          unfold utf8EncodeChar
          rw [if_neg h1, if_neg h2, if_pos h3]
        rw [henc, List.cons_append, List.cons_append, List.cons_append, List.nil_append]
        simp only [decodeOne.eq_def, decodeTail3.eq_def]
        rw [if_neg (by omega), if_neg (by omega), if_neg (by omega), if_pos (by omega),
          if_pos (by refine ⟨⟨by omega, by omega⟩, by omega, by omega, by omega, by omega⟩)]
        have hval : (224 + c.toNat / 4096 - 224) * 4096 +
            (128 + (c.toNat / 64) % 64 - 128) * 64 + (128 + c.toNat % 64 - 128) = c.toNat := by
          omega
        rw [hval, hofNat]
      · have h4 : c.toNat < 1114112 := by
          rcases hv with h | ⟨_, h⟩
          · omega
          · exact h
        have henc : utf8EncodeChar c =
            [240 + c.toNat / 262144, 128 + (c.toNat / 4096) % 64, 128 + (c.toNat / 64) % 64,
              128 + c.toNat % 64] := by
          unfold utf8EncodeChar
          rw [if_neg h1, if_neg h2, if_neg h3]
        rw [henc, List.cons_append, List.cons_append, List.cons_append, List.cons_append,
          List.nil_append]
        simp only [decodeOne.eq_def, decodeTail4.eq_def]
        rw [if_neg (by omega), if_neg (by omega), if_neg (by omega), if_neg (by omega),
          if_pos (by omega),
          if_pos (by
            refine ⟨⟨by omega, by omega⟩, by omega, by omega, by omega, by omega⟩)]
        have hval : (240 + c.toNat / 262144 - 240) * 262144 +
            (128 + (c.toNat / 4096) % 64 - 128) * 4096 +
            (128 + (c.toNat / 64) % 64 - 128) * 64 + (128 + c.toNat % 64 - 128) = c.toNat := by
          omega
        rw [hval, hofNat]

/-- The encoder never produces the empty byte list. -/
theorem utf8EncodeChar_ne_nil (c : Char) : utf8EncodeChar c ≠ [] := by
  unfold utf8EncodeChar
  split_ifs <;> simp

/-- Decoding one encoded character from the front of a byte stream
recovers exactly that character. -/
theorem decodeUtf8_encodeChar (c : Char) (rest : List Nat) :
    decodeUtf8 (utf8EncodeChar c ++ rest) = (decodeUtf8 rest).map (fun cs => c :: cs) := by
  obtain ⟨b, l, heq⟩ : ∃ b l, utf8EncodeChar c ++ rest = b :: l := by
    rcases he : utf8EncodeChar c with _ | ⟨b, bl⟩
    · exact absurd he (utf8EncodeChar_ne_nil c)
    · exact ⟨b, bl ++ rest, by rw [List.cons_append]⟩
  rw [heq]
  exact decodeUtf8_cons_some b l c rest (by rw [← heq]; exact decodeOne_encodeChar c rest)

/-- Decoding the UTF-8 encoding of any text recovers the text. -/
theorem decodeUtf8_text_to_tokens : ∀ (t : List Char),
    decodeUtf8 (text_to_tokens t) = some t := by
  intro t
  induction t with
  | nil => rfl
  | cons c cs ih =>
    rw [text_to_tokens, decodeUtf8_encodeChar, ih]
    rfl

/-! ### Claim C1 — round-trip -/

/-- C1: for every text `t` and the rule list produced by a training run of
`perform_merges` on any corpus with `start_token_idx = S ≥ 256`, decoding
the encoding of `t` returns exactly `t`.  The claim's freshness
precondition — no composite id assigned by the rules coincides with a token
present in the sequence before that rule's expansion point — is discharged
from `S ≥ 256`: raw bytes are below 256 and rule `i` introduces id `S + i`,
so every token present before rule `i` replays is below `S + i`. -/
theorem round_trip (corpus : List Nat) (n S : Nat) (hS : 256 ≤ S) (t : List Char) :
    decode_text (encode_text t (perform_merges corpus n S).2.2 S)
      (perform_merges corpus n S).2.2 S = PyStrResult.ok (String.mk t) := by
  obtain ⟨new, h1, _, _, h4, _, _, _⟩ := perform_merges_loop_spec n corpus S []
  rw [List.nil_append] at h1
  subst h1
  simp only [perform_merges, encode_text, decode_text]
  have hbytes : ∀ x ∈ text_to_tokens t, x < S := fun x hx =>
    Nat.lt_of_lt_of_le (text_to_tokens_lt_256 t x hx) hS
  have hfresh : ∀ i (hi : i < (perform_merges_loop n corpus S []).2.2.length),
      ((perform_merges_loop n corpus S []).2.2.get ⟨i, hi⟩).new_token ∉
        apply_rules (text_to_tokens t) ((perform_merges_loop n corpus S []).2.2.take i) := by
    intro i hi hmem
    have hbound := apply_rules_take_bound (perform_merges_loop n corpus S []).2.2
      (text_to_tokens t) S hbytes h4 i (Nat.le_of_lt hi) _ hmem
    rw [h4 i hi] at hbound
    omega
  rw [expand_all_apply_rules _ _ hfresh]
  have hall : (text_to_tokens t).all (fun b => b < 256) = true := by
    rw [List.all_eq_true]
    intro x hx
    exact decide_eq_true (text_to_tokens_lt_256 t x hx)
  rw [if_pos hall, decodeUtf8_text_to_tokens]

/-- Witness for C1: round-trip of `"aaaa"` through its own trained rules. -/
theorem round_trip_witness :
    (256 : Nat) ≤ 256 ∧
    decode_text (encode_text ['a', 'a', 'a', 'a'] (perform_merges [97, 97, 97, 97] 2 256).2.2 256)
      (perform_merges [97, 97, 97, 97] 2 256).2.2 256 =
      PyStrResult.ok (String.mk ['a', 'a', 'a', 'a']) :=
  ⟨by decide, round_trip [97, 97, 97, 97] 2 256 (by decide) ['a', 'a', 'a', 'a']⟩

end Tokenizer
